import Mathlib

/-!
Verification of the watermark application in `Photo Watermark 2/watermark_app`.

The development shallowly embeds the core of the program:
* `core/exporter.py` — `_safe_filename`, `_apply_naming`, `_anchor_pos`,
  `_render_text_image` (abstracted as a rendering primitive), `_maybe_resize`,
  `export_batch`;
* `core/image_loader.py` — `ImageLoader.collect`;
* `core/preview_composer.py` — `compose_text_watermark`;
* `ui/main_window.py` — `PreviewLabel.load_image` / `update_composite`,
  `MainWindow._compose_preview_like`, `_export_preview_like_batch`,
  `_build_output_path`, `_offset_ratio`.

Bitmaps are modelled as a width, a height, and a total pixel function; the
external rendering primitives (Qt text rasterisation, LANCZOS resize, BICUBIC
rotation) are parameters of the embedding, gathered in `Prims`.  Machine
`float` arithmetic is modelled exactly where a claim depends on it
(`roundD` rounds a rational to the nearest IEEE-754 binary64 value).
Python `int()` truncation is `pyInt`, Python `//` on ints is `Int.fdiv`.
-/

namespace Watermark

/-- An RGBA pixel; channels are 0..255 integers as in PIL `RGBA` rasters. -/
structure Pix where
  r : ℕ
  g : ℕ
  b : ℕ
  a : ℕ
deriving DecidableEq

/-- The fully transparent black pixel, the fill of a fresh `RGBA` layer. -/
def Pix.zero : Pix := ⟨0, 0, 0, 0⟩

/-- A bitmap: dimensions plus a total pixel map (out-of-range coordinates are
irrelevant to every property proved below). -/
structure Img where
  width : ℕ
  height : ℕ
  pix : ℕ → ℕ → Pix

theorem Img.ext_eq {i j : Img} (hw : i.width = j.width) (hh : i.height = j.height)
    (hp : i.pix = j.pix) : i = j := by
  cases i; cases j; simp_all

/-- Floor of a rational, computed on the numerator and denominator
(`Int.fdiv` rounds toward −∞, matching Python `//`). -/
def qfloor (q : ℚ) : ℤ := Int.fdiv q.num (q.den : ℤ)

/-- Python `int(x)` on a real value: truncation toward zero. -/
def pyInt (q : ℚ) : ℤ := if 0 ≤ q then qfloor q else -qfloor (-q)

theorem qfloor_intCast (n : ℤ) : qfloor (n : ℚ) = n := by
  rw [qfloor, Rat.num_intCast, Rat.den_intCast]
  exact Int.fdiv_one n

theorem pyInt_intCast (n : ℤ) : pyInt (n : ℚ) = n := by
  by_cases h : (0:ℚ) ≤ (n:ℚ)
  · rw [pyInt, if_pos h, qfloor_intCast]
  · rw [pyInt, if_neg h, show -(n:ℚ) = ((-n : ℤ) : ℚ) by push_cast; ring,
      qfloor_intCast, neg_neg]

/-!
## Anchor geometry

`_anchor_pos` appears twice in the source, character for character: once in
`core/exporter.py` and once as `PreviewLabel._anchor_pos` in
`ui/main_window.py`.  Both build a dict of the nine named grid positions with
`margin = 16` and fall back to the `bottom-right` entry via `.get`.
-/

/-- The dict literal `mapping` built inside `_anchor_pos`. -/
def anchorMapping (W H tw th : ℤ) : List (String × (ℤ × ℤ)) :=
  [ ("top-left", (16, 16))
  , ("top-center", (Int.fdiv (W - tw) 2, 16))
  , ("top-right", (W - tw - 16, 16))
  , ("middle-left", (16, Int.fdiv (H - th) 2))
  , ("center", (Int.fdiv (W - tw) 2, Int.fdiv (H - th) 2))
  , ("middle-right", (W - tw - 16, Int.fdiv (H - th) 2))
  , ("bottom-left", (16, H - th - 16))
  , ("bottom-center", (Int.fdiv (W - tw) 2, H - th - 16))
  , ("bottom-right", (W - tw - 16, H - th - 16)) ]

/-- `_anchor_pos(W, H, tw, th, anchor)`: dict lookup with the
`bottom-right` position as the `.get` default. -/
def anchorPos (W H tw th : ℤ) (anchor : String) : ℤ × ℤ :=
  ((anchorMapping W H tw th).lookup anchor).getD (W - tw - 16, H - th - 16)

/-- The nine known anchor names, in dict order. -/
def anchorNames : List String :=
  [ "top-left", "top-center", "top-right", "middle-left", "center"
  , "middle-right", "bottom-left", "bottom-center", "bottom-right" ]

theorem anchorPos_of_not_mem (W H tw th : ℤ) (a : String) (h : a ∉ anchorNames) :
    anchorPos W H tw th a = (W - tw - 16, H - th - 16) := by
  simp only [anchorNames, List.mem_cons, List.not_mem_nil, or_false, not_or] at h
  obtain ⟨h1, h2, h3, h4, h5, h6, h7, h8, h9⟩ := h
  simp [anchorPos, anchorMapping, List.lookup,
    beq_eq_false_iff_ne.mpr h1, beq_eq_false_iff_ne.mpr h2, beq_eq_false_iff_ne.mpr h3,
    beq_eq_false_iff_ne.mpr h4, beq_eq_false_iff_ne.mpr h5, beq_eq_false_iff_ne.mpr h6,
    beq_eq_false_iff_ne.mpr h7, beq_eq_false_iff_ne.mpr h8, beq_eq_false_iff_ne.mpr h9]

/-- C3: the anchor resolver returns the 3×3-grid base position with fixed
margin 16: `x = 16` for left anchors, `W − lw − 16` for right anchors, and
`(W − lw) // 2` (Python floor division, `Int.fdiv`) for horizontally centered
anchors; `y` analogously with `H`, `lh`; and any anchor name outside the nine
known names yields the bottom-right position `(W − lw − 16, H − lh − 16)`. -/
theorem C3_anchor_positions (W H lw lh : ℤ) :
    anchorPos W H lw lh "top-left" = (16, 16) ∧
    anchorPos W H lw lh "top-center" = (Int.fdiv (W - lw) 2, 16) ∧
    anchorPos W H lw lh "top-right" = (W - lw - 16, 16) ∧
    anchorPos W H lw lh "middle-left" = (16, Int.fdiv (H - lh) 2) ∧
    anchorPos W H lw lh "center" = (Int.fdiv (W - lw) 2, Int.fdiv (H - lh) 2) ∧
    anchorPos W H lw lh "middle-right" = (W - lw - 16, Int.fdiv (H - lh) 2) ∧
    anchorPos W H lw lh "bottom-left" = (16, H - lh - 16) ∧
    anchorPos W H lw lh "bottom-center" = (Int.fdiv (W - lw) 2, H - lh - 16) ∧
    anchorPos W H lw lh "bottom-right" = (W - lw - 16, H - lh - 16) ∧
    (∀ a : String, a ∉ anchorNames →
      anchorPos W H lw lh a = (W - lw - 16, H - lh - 16)) := by
  refine ⟨rfl, rfl, rfl, rfl, rfl, rfl, rfl, rfl, rfl, ?_⟩
  exact anchorPos_of_not_mem W H lw lh

/-- Witness for C3 at a concrete canvas, layer and an unknown anchor name. -/
theorem C3_anchor_positions_witness :
    anchorPos 100 80 10 6 "top-left" = (16, 16) ∧
    anchorPos 100 80 10 6 "center" = (45, 37) ∧
    anchorPos 100 80 10 6 "wat" = (74, 58) := by
  have h := C3_anchor_positions 100 80 10 6
  refine ⟨h.1, ?_, ?_⟩
  · have := h.2.2.2.2.1
    simpa using this
  · have := h.2.2.2.2.2.2.2.2.2 "wat" (by decide)
    simpa using this

/-!
## String and path utilities

`os.path` is modelled for POSIX: the separator is `'/'`, `os.path.join` with a
relative second component is concatenation with `'/'`.  `os.path.splitext`
splits at the last dot of the basename unless every character before that dot
is itself a dot (leading dots do not start an extension).
-/

theorem strApp_data (a b : String) : (a ++ b).data = a.data ++ b.data := rfl

theorem str_data_inj : ∀ {a b : String}, a.data = b.data → a = b := by
  intro a b h; cases a; cases b; exact congrArg String.mk h

theorem strApp_inj_right (a : String) {b c : String} (h : a ++ b = a ++ c) : b = c := by
  apply str_data_inj
  have := congrArg String.data h
  rw [strApp_data, strApp_data] at this
  exact List.append_cancel_left this

theorem strApp_inj_left (c : String) {a b : String} (h : a ++ c = b ++ c) : a = b := by
  apply str_data_inj
  have := congrArg String.data h
  rw [strApp_data, strApp_data] at this
  exact List.append_cancel_right this

theorem strApp_length (a b : String) : (a ++ b).length = a.length + b.length := by
  show (a ++ b).data.length = a.data.length + b.data.length
  rw [strApp_data]
  exact List.length_append _ _

/-- Lower-case a string character-wise (`str.lower()` restricted to ASCII,
which is all the source compares: file extensions and format names). -/
def lowerStr (s : String) : String := ⟨s.data.map Char.toLower⟩

/-- `os.path.basename`: the part after the last `'/'`. -/
def pathBasename (s : String) : String :=
  ⟨(s.data.reverse.takeWhile (fun c => c ≠ '/')).reverse⟩

/-- The index of the last `'.'` of `b`, assuming `b` has a dot: everything
after the last dot is the reversed `takeWhile` below. -/
def lastDotPos (b : String) : ℕ :=
  b.data.length - (b.data.reverse.takeWhile (fun c => c ≠ '.')).length - 1

/-- `os.path.splitext` on a basename: split before the last `'.'`, except that
a name whose characters before that dot are all dots keeps an empty
extension. -/
def splitExt (b : String) : String × String :=
  if (b.data.reverse.takeWhile (fun c => c ≠ '.')).length = b.data.length then (b, "")
  else if (b.data.take (lastDotPos b)).all (fun c => c = '.') then (b, "")
  else (⟨b.data.take (lastDotPos b)⟩, ⟨b.data.drop (lastDotPos b)⟩)

theorem strApp_empty (a : String) : a ++ "" = a := by
  cases a with
  | mk l => exact congrArg String.mk (List.append_nil l)

theorem splitExt_append (b : String) : (splitExt b).1 ++ (splitExt b).2 = b := by
  unfold splitExt
  split_ifs
  · exact strApp_empty b
  · exact strApp_empty b
  · exact str_data_inj (by rw [strApp_data]; exact List.take_append_drop _ _)

/-- `os.path.join(dir, s)` for a relative `s` on POSIX. -/
def pjoin (dir s : String) : String := dir ++ "/" ++ s

theorem pjoin_inj (dir : String) {a b : String} (h : pjoin dir a = pjoin dir b) :
    a = b :=
  strApp_inj_right _ h

/-- Decimal rendering of a natural number as Python's `str`/f-string produces
it (most significant digit first); `natDecimal 0 = ""`, but the source only
renders the counters `1, 2, …`. -/
def natDecimal (n : ℕ) : String :=
  ⟨((Nat.digits 10 n).reverse).map (fun d => Char.ofNat (48 + d))⟩

theorem digitChar_inj (d₁ d₂ : ℕ) (h₁ : d₁ < 10) (h₂ : d₂ < 10)
    (h : Char.ofNat (48 + d₁) = Char.ofNat (48 + d₂)) : d₁ = d₂ := by
  interval_cases d₁ <;> interval_cases d₂ <;> revert h <;> decide

theorem map_digitChar_inj : ∀ (l₁ l₂ : List ℕ), (∀ d ∈ l₁, d < 10) →
    (∀ d ∈ l₂, d < 10) →
    l₁.map (fun d => Char.ofNat (48 + d)) = l₂.map (fun d => Char.ofNat (48 + d)) →
    l₁ = l₂ := by
  intro l₁
  induction l₁ with
  | nil => intro l₂ _ _ h; cases l₂ <;> simp_all
  | cons x xs ih =>
    intro l₂ hx hl h
    cases l₂ with
    | nil => simp_all
    | cons y ys =>
      simp only [List.map_cons, List.cons.injEq] at h
      have hxy : x = y := digitChar_inj x y (hx x (by simp)) (hl y (by simp)) h.1
      have := ih ys (fun d hd => hx d (by simp [hd])) (fun d hd => hl d (by simp [hd])) h.2
      simp [hxy, this]

theorem natDecimal_inj {m n : ℕ} (h : natDecimal m = natDecimal n) : m = n := by
  unfold natDecimal at h
  have hdata := congrArg String.data h
  simp only at hdata
  have hrev := map_digitChar_inj _ _
    (fun d hd => Nat.digits_lt_base (by norm_num) (List.mem_reverse.mp hd))
    (fun d hd => Nat.digits_lt_base (by norm_num) (List.mem_reverse.mp hd)) hdata
  have hd : Nat.digits 10 m = Nat.digits 10 n := List.reverse_injective hrev
  have := congrArg (Nat.ofDigits 10) hd
  rwa [Nat.ofDigits_digits, Nat.ofDigits_digits] at this

theorem natDecimal_length_pos {n : ℕ} (h : 0 < n) : 0 < (natDecimal n).length := by
  have hne : Nat.digits 10 n ≠ [] := Nat.digits_ne_nil_iff_ne_zero.mpr (by omega)
  have hlen : (natDecimal n).data.length = (Nat.digits 10 n).length := by
    simp [natDecimal]
  show 0 < (natDecimal n).data.length
  rw [hlen]
  exact List.length_pos.mpr hne

/-!
## Collision-avoiding filename resolution

`_safe_filename` (`core/exporter.py`) starts from `dir/baseName` and, while
the candidate exists, retries `dir/{stem}_{i}{ext}` for `i = 1, 2, …`.
`MainWindow._build_output_path` does the same with `dir/{stem}({i}){ext}`.
Both loops are embedded with explicit fuel `|fs| + 1`; the pigeonhole lemma
`exists_fresh` shows that this fuel always suffices, so the embedded function
equals the (terminating) Python loop.  The filesystem is a list `fs` of
existing paths.
-/

def freshLoop (fs : List String) (cand : ℕ → String) : ℕ → ℕ → String
  | 0, i => cand i
  | fuel+1, i => if cand i ∈ fs then freshLoop fs cand fuel (i+1) else cand i

theorem freshLoop_spec (fs : List String) (cand : ℕ → String) :
    ∀ fuel i, (∃ k, i ≤ k ∧ k ≤ i + fuel ∧ cand k ∉ fs) →
    freshLoop fs cand fuel i ∉ fs := by
  intro fuel
  induction fuel with
  | zero =>
    intro i ⟨k, h1, h2, h3⟩
    have : k = i := by omega
    subst this
    simp only [freshLoop]
    exact h3
  | succ f ih =>
    intro i ⟨k, h1, h2, h3⟩
    by_cases hmem : cand i ∈ fs
    · have hki : k ≠ i := fun he => h3 (he ▸ hmem)
      simp only [freshLoop, if_pos hmem]
      exact ih (i+1) ⟨k, by omega, by omega, h3⟩
    · simp only [freshLoop, if_neg hmem]
      exact hmem

theorem exists_fresh (fs : List String) (cand : ℕ → String)
    (hinj : Function.Injective cand) :
    ∃ k, k ≤ fs.length ∧ cand k ∉ fs := by
  by_contra hcon
  push_neg at hcon
  have hmem : ∀ k ≤ fs.length, cand k ∈ fs := hcon
  set l := (List.range (fs.length + 1)).map cand with hl
  have hnd : l.Nodup := (List.nodup_range _).map hinj
  have hsub : l.toFinset ⊆ fs.toFinset := by
    intro x hx
    rw [List.mem_toFinset] at hx ⊢
    obtain ⟨k, hk, rfl⟩ := List.mem_map.mp hx
    exact hmem k (by simpa using Nat.lt_succ_iff.mp (List.mem_range.mp hk))
  have h1 : l.toFinset.card = fs.length + 1 := by
    rw [List.toFinset_card_of_nodup hnd]
    simp [hl]
  have h2 : fs.toFinset.card ≤ fs.length := fs.toFinset_card_le
  have := Finset.card_le_card hsub
  omega

theorem freshLoop_fresh (fs : List String) (cand : ℕ → String)
    (hinj : Function.Injective cand) :
    freshLoop fs cand (fs.length + 1) 0 ∉ fs := by
  obtain ⟨k, hk, hfresh⟩ := exists_fresh fs cand hinj
  exact freshLoop_spec fs cand _ 0 ⟨k, Nat.zero_le k, by omega, hfresh⟩

/-- The candidate sequence of `_safe_filename`: first `dir/baseName`, then
`dir/{name}_{k}{ext}` for `k = 1, 2, …`. -/
def safeCand (dir name ext baseName : String) (k : ℕ) : String :=
  if k = 0 then pjoin dir baseName
  else pjoin dir (name ++ "_" ++ natDecimal k ++ ext)

/-- `_safe_filename(base_name, output_dir)` from `core/exporter.py`, with the
set of existing paths made explicit as `fs`. -/
def safeFilename (baseName outputDir : String) (fs : List String) : String :=
  let ne := splitExt baseName
  freshLoop fs (safeCand outputDir ne.1 ne.2 baseName) (fs.length + 1) 0

theorem safeCand_inj (dir name ext baseName : String)
    (hsplit : name ++ ext = baseName) :
    Function.Injective (safeCand dir name ext baseName) := by
  intro j k h
  unfold safeCand at h
  by_cases hj : j = 0 <;> by_cases hk : k = 0
  · omega
  · exfalso
    rw [if_pos hj, if_neg hk] at h
    have h2 := pjoin_inj dir h
    rw [← hsplit] at h2
    have hlen := congrArg String.length h2
    simp only [strApp_length] at hlen
    have hnd : 0 < (natDecimal k).length := natDecimal_length_pos (by omega)
    have hu : ("_" : String).length = 1 := rfl
    omega
  · exfalso
    rw [if_neg hj, if_pos hk] at h
    have h2 := pjoin_inj dir h.symm
    rw [← hsplit] at h2
    have hlen := congrArg String.length h2
    simp only [strApp_length] at hlen
    have hnd : 0 < (natDecimal j).length := natDecimal_length_pos (by omega)
    have hu : ("_" : String).length = 1 := rfl
    omega
  · rw [if_neg hj, if_neg hk] at h
    have h2 := pjoin_inj dir h
    have h3 := strApp_inj_left ext h2
    have h4 := strApp_inj_right (name ++ "_") h3
    exact natDecimal_inj h4

theorem safeFilename_fresh (baseName outputDir : String) (fs : List String) :
    safeFilename baseName outputDir fs ∉ fs := by
  unfold safeFilename
  exact freshLoop_fresh fs _ (safeCand_inj _ _ _ _ (splitExt_append baseName))

/-!
## Naming rules and the UI output-path builder
-/

/-- `ExportSettings` from `core/exporter.py` (the `prefix`/`suffix` fields are
named `prefixStr`/`suffixStr` because their Python names are Lean keywords). -/
structure ExportSettings where
  output_dir : String
  fmt : String
  name_rule : String
  prefixStr : String := ""
  suffixStr : String := ""
  jpeg_quality : ℤ := 90
  resize_mode : Option String := none
  resize_value : Option ℤ := none

/-- `_apply_naming(path, settings, out_ext)` from `core/exporter.py`.  The
Python truthiness tests `settings.prefix` / `settings.suffix` are the
non-emptiness tests on the strings. -/
def applyNaming (path : String) (st : ExportSettings) (outExt : String) : String :=
  let stem := (splitExt (pathBasename path)).1
  let stem2 :=
    if st.name_rule = "prefix" ∧ st.prefixStr ≠ "" then st.prefixStr ++ stem
    else if st.name_rule = "suffix" ∧ st.suffixStr ≠ "" then stem ++ st.suffixStr
    else stem
  stem2 ++ "." ++ outExt

/-- The candidate sequence of `_build_output_path`: first `dir/{stem}{ext}`,
then `dir/{stem}({k}){ext}` for `k = 1, 2, …`. -/
def outCand (dir stem ext : String) (k : ℕ) : String :=
  if k = 0 then pjoin dir (stem ++ ext)
  else pjoin dir (stem ++ "(" ++ natDecimal k ++ ")" ++ ext)

/-- `MainWindow._build_output_path(src_path, settings)` from
`ui/main_window.py`, with the existing paths explicit as `fs`.  Note
`settings.prefix or ''` is just the string itself (strings are their own
`or ''`). -/
def buildOutputPath (srcPath : String) (st : ExportSettings) (fs : List String) : String :=
  let stem0 := (splitExt (pathBasename srcPath)).1
  let stem :=
    if st.name_rule = "prefix" then st.prefixStr ++ stem0
    else if st.name_rule = "suffix" then stem0 ++ st.suffixStr
    else stem0
  let ext := if lowerStr st.fmt = "jpeg" ∨ lowerStr st.fmt = "jpg" then ".jpg" else ".png"
  freshLoop fs (outCand st.output_dir stem ext) (fs.length + 1) 0

theorem outCand_inj (dir stem ext : String) :
    Function.Injective (outCand dir stem ext) := by
  intro j k h
  unfold outCand at h
  by_cases hj : j = 0 <;> by_cases hk : k = 0
  · omega
  · exfalso
    rw [if_pos hj, if_neg hk] at h
    have h2 := pjoin_inj dir h
    have := congrArg String.length h2
    simp only [strApp_length] at this
    have hnd : 0 < (natDecimal k).length := natDecimal_length_pos (by omega)
    have h1 : ("(" : String).length = 1 := rfl
    have h3 : (")" : String).length = 1 := rfl
    omega
  · exfalso
    rw [if_neg hj, if_pos hk] at h
    have h2 := pjoin_inj dir h.symm
    have := congrArg String.length h2
    simp only [strApp_length] at this
    have hnd : 0 < (natDecimal j).length := natDecimal_length_pos (by omega)
    have h1 : ("(" : String).length = 1 := rfl
    have h3 : (")" : String).length = 1 := rfl
    omega
  · rw [if_neg hj, if_neg hk] at h
    have h2 := pjoin_inj dir h
    have h3 := strApp_inj_left ext h2
    have h4 := strApp_inj_left (")" : String) h3
    have h5 := strApp_inj_right (stem ++ "(") h4
    exact natDecimal_inj h5

theorem buildOutputPath_fresh (srcPath : String) (st : ExportSettings)
    (fs : List String) : buildOutputPath srcPath st fs ∉ fs := by
  unfold buildOutputPath
  exact freshLoop_fresh fs _ (outCand_inj _ _ _)

/-- C5: the collision resolvers never return an existing path, and exporting
two images that resolve to the same base filename into the same directory in
one batch (the first output added to the existing files before the second is
resolved) yields two distinct paths, for both `_safe_filename`
(`core/exporter.py`) and `_build_output_path` (`ui/main_window.py`). -/
theorem C5_collision_safe (baseName outputDir srcPath : String)
    (st : ExportSettings) (fs : List String) :
    (safeFilename baseName outputDir fs ∉ fs ∧
     safeFilename baseName outputDir (safeFilename baseName outputDir fs :: fs)
       ≠ safeFilename baseName outputDir fs ∧
     safeFilename baseName outputDir (safeFilename baseName outputDir fs :: fs) ∉ fs) ∧
    (buildOutputPath srcPath st fs ∉ fs ∧
     buildOutputPath srcPath st (buildOutputPath srcPath st fs :: fs)
       ≠ buildOutputPath srcPath st fs ∧
     buildOutputPath srcPath st (buildOutputPath srcPath st fs :: fs) ∉ fs) := by
  have h1 := safeFilename_fresh baseName outputDir fs
  have h2 := safeFilename_fresh baseName outputDir
    (safeFilename baseName outputDir fs :: fs)
  have h3 := buildOutputPath_fresh srcPath st fs
  have h4 := buildOutputPath_fresh srcPath st (buildOutputPath srcPath st fs :: fs)
  simp only [List.mem_cons, not_or] at h2 h4
  exact ⟨⟨h1, h2.1, h2.2⟩, ⟨h3, h4.1, h4.2⟩⟩

/-- C10: with an empty prefix string under the `prefix` rule, or an empty
suffix string under the `suffix` rule, both naming functions produce exactly
the filename the `keep` rule produces. -/
theorem C10_empty_affix_is_keep (path outExt srcPath : String)
    (st : ExportSettings) (fs : List String) :
    applyNaming path {st with name_rule := "prefix", prefixStr := ""} outExt
      = applyNaming path {st with name_rule := "keep"} outExt ∧
    applyNaming path {st with name_rule := "suffix", suffixStr := ""} outExt
      = applyNaming path {st with name_rule := "keep"} outExt ∧
    buildOutputPath srcPath {st with name_rule := "prefix", prefixStr := ""} fs
      = buildOutputPath srcPath {st with name_rule := "keep"} fs ∧
    buildOutputPath srcPath {st with name_rule := "suffix", suffixStr := ""} fs
      = buildOutputPath srcPath {st with name_rule := "keep"} fs := by
  refine ⟨?_, ?_, ?_, ?_⟩ <;> simp [applyNaming, buildOutputPath, outCand]

/-!
## `core/image_loader.py` — `ImageLoader.collect`

The filesystem is abstracted as `FS`: `isDir`/`isFile` answer the `os.path`
queries and `walkFiles d` is the list of joined file paths `os.walk(d)`
produces, in walk order.  `ImageItem` is a plain wrapper around the path, so
paths are collected directly.
-/

def SUPPORTED_EXT : List String := [".jpg", ".jpeg", ".png", ".bmp", ".tif", ".tiff"]

structure FS where
  isDir : String → Bool
  isFile : String → Bool
  walkFiles : String → List String

/-- `ImageLoader._is_supported`: `os.path.isfile(path) and
os.path.splitext(path)[1].lower() in SUPPORTED_EXT` (`os.path.splitext` only
ever splits inside the basename). -/
def isSupported (fs : FS) (path : String) : Bool :=
  fs.isFile path && SUPPORTED_EXT.contains (lowerStr (splitExt (pathBasename path)).2)

/-- The `results` list built by the first loop of `ImageLoader.collect`. -/
def collectRaw (fs : FS) (inputs : List String) : List String :=
  inputs.flatMap (fun p =>
    if fs.isDir p then (fs.walkFiles p).filter (fun fp => isSupported fs fp)
    else if isSupported fs p then [p] else [])

/-- The dedup loop of `ImageLoader.collect`: `seen` is the set of already
emitted paths, `uniq` is accumulated in order. -/
def dedupFirstGo (seen : List String) : List String → List String
  | [] => []
  | x :: xs =>
    if seen.contains x then dedupFirstGo seen xs
    else x :: dedupFirstGo (x :: seen) xs

/-- `ImageLoader.collect(inputs)`: gather supported files, then deduplicate
keeping first occurrences. -/
def collect (fs : FS) (inputs : List String) : List String :=
  dedupFirstGo [] (collectRaw fs inputs)

/-- Modelled from the spec wording of C9 only for comparison: the canonical
"keep the first occurrence of each element, in order" function. -/
def keepFirst : List String → List String
  | [] => []
  | x :: xs => x :: keepFirst (xs.filter (fun y => y ≠ x))
termination_by l => l.length
decreasing_by
  simp only [List.length_cons]
  exact Nat.lt_succ_of_le (List.length_filter_le _ _)

theorem dedupFirstGo_spec (l : List String) : ∀ seen : List String,
    (dedupFirstGo seen l).Nodup ∧
    List.Sublist (dedupFirstGo seen l) l ∧
    (∀ p, p ∈ dedupFirstGo seen l ↔ (p ∈ l ∧ seen.contains p = false)) := by
  induction l with
  | nil => intro seen; refine ⟨List.nodup_nil, List.Sublist.refl _, ?_⟩; simp [dedupFirstGo]
  | cons x xs ih =>
    intro seen
    by_cases hx : seen.contains x
    · obtain ⟨ihn, ihs, ihm⟩ := ih seen
      refine ⟨?_, ?_, ?_⟩
      · simp only [dedupFirstGo, if_pos hx]
        exact ihn
      · simp only [dedupFirstGo, if_pos hx]
        exact ihs.cons x
      · intro p
        simp only [dedupFirstGo, if_pos hx]
        rw [ihm p]
        constructor
        · exact fun ⟨h1, h2⟩ => ⟨List.mem_cons_of_mem x h1, h2⟩
        · rintro ⟨h1, h2⟩
          rcases List.mem_cons.mp h1 with rfl | h1
          · exact Bool.noConfusion (h2 ▸ hx)
          · exact ⟨h1, h2⟩
    · obtain ⟨ihn, ihs, ihm⟩ := ih (x :: seen)
      have hxmem : x ∉ dedupFirstGo (x :: seen) xs := by
        intro hmem
        have := (ihm x).mp hmem
        simp at this
      refine ⟨?_, ?_, ?_⟩
      · simp only [dedupFirstGo, if_neg hx]
        exact List.nodup_cons.mpr ⟨hxmem, ihn⟩
      · simp only [dedupFirstGo, if_neg hx]
        exact ihs.cons₂ x
      · intro p
        simp only [dedupFirstGo, if_neg hx, List.mem_cons]
        constructor
        · rintro (rfl | hmem)
          · exact ⟨Or.inl rfl, by simpa using hx⟩
          · have := (ihm p).mp hmem
            simp only [List.contains_cons, Bool.or_eq_false_iff] at this
            exact ⟨Or.inr this.1, this.2.2⟩
        · rintro ⟨rfl | hmem, hseen⟩
          · exact Or.inl rfl
          · by_cases hpx : p = x
            · exact Or.inl hpx
            · refine Or.inr ((ihm p).mpr ⟨hmem, ?_⟩)
              rw [List.contains_cons]
              exact Bool.or_eq_false_iff.mpr ⟨beq_eq_false_iff_ne.mpr hpx, hseen⟩

theorem dedupFirstGo_eq_keepFirst (l : List String) : ∀ seen : List String,
    dedupFirstGo seen l = keepFirst (l.filter (fun y => !(seen.contains y))) := by
  induction l with
  | nil => intro seen; simp [dedupFirstGo, keepFirst]
  | cons x xs ih =>
    intro seen
    by_cases hx : seen.contains x
    · simp only [dedupFirstGo, if_pos hx, List.filter_cons, hx, Bool.not_true,
        Bool.false_eq_true, if_false]
      exact ih seen
    · have hcf : seen.contains x = false := Bool.eq_false_iff.mpr hx
      have hfx : (!(seen.contains x)) = true := by rw [hcf]; rfl
      have hfilters : xs.filter (fun y => !((x :: seen).contains y))
          = (xs.filter (fun y => !(seen.contains y))).filter (fun y => y ≠ x) := by
        rw [List.filter_filter]
        apply List.filter_congr
        intro a _
        by_cases hax : a = x <;> simp [hax, List.contains_cons]
      simp only [dedupFirstGo, if_neg hx, List.filter_cons, hfx, if_true, keepFirst]
      rw [ih (x :: seen), hfilters]

theorem mem_collectRaw_supported (fs : FS) (inputs : List String) :
    ∀ p ∈ collectRaw fs inputs, isSupported fs p = true := by
  intro p hp
  unfold collectRaw at hp
  obtain ⟨q, _, hq⟩ := List.mem_flatMap.mp hp
  split at hq
  · exact (List.mem_filter.mp hq).2
  · split at hq
    · rcases List.mem_cons.mp hq with rfl | h
      · assumption
      · simp at h
    · simp at hq

/-- C9: `ImageLoader.collect` returns a duplicate-free list, equal to the
first-occurrence dedup of the gathered list (hence preserving
first-occurrence order, and a sublist of it with the same members), and every
returned path passes `_is_supported`: it is a regular file whose lower-cased
extension is one of `.jpg .jpeg .png .bmp .tif .tiff`. -/
theorem C9_collect_dedup_supported (fs : FS) (inputs : List String) :
    (collect fs inputs).Nodup ∧
    collect fs inputs = keepFirst (collectRaw fs inputs) ∧
    List.Sublist (collect fs inputs) (collectRaw fs inputs) ∧
    (∀ p, p ∈ collect fs inputs ↔ p ∈ collectRaw fs inputs) ∧
    (∀ p ∈ collect fs inputs, fs.isFile p = true ∧
      SUPPORTED_EXT.contains (lowerStr (splitExt (pathBasename p)).2) = true) := by
  obtain ⟨hn, hs, hm⟩ := dedupFirstGo_spec (collectRaw fs inputs) []
  have hk := dedupFirstGo_eq_keepFirst (collectRaw fs inputs) []
  refine ⟨hn, ?_, hs, ?_, ?_⟩
  · rw [collect, hk]
    congr 1
    apply List.filter_eq_self.mpr
    intro a _
    simp [List.contains]
  · intro p
    rw [collect, hm p]
    simp
  · intro p hp
    have hsup := mem_collectRaw_supported fs inputs p ((hm p).mp hp).1
    unfold isSupported at hsup
    exact ⟨(Bool.and_eq_true _ _ |>.mp hsup).1, (Bool.and_eq_true _ _ |>.mp hsup).2⟩

/-!
## Pixel-level compositing operations (PIL)

`Image.paste(src, (x, y), src)` blends with the pasted image's own alpha as
mask (`maskBlend`; a zero mask leaves the destination pixel untouched, which
is the only arithmetic fact the claims rely on).  `Image.alpha_composite`
performs source-over blending; Pillow's `AlphaComposite.c` copies the
destination pixel verbatim when the source alpha is 0, and otherwise blends
with integer rounding (`overPix`).
-/

/-- PIL's per-channel paste blend `(dst*(255-m) + src*m)` with /255 rounding,
using the source pixel's alpha as the mask `m`. -/
def maskBlend (s d : Pix) : Pix :=
  let m := s.a
  ⟨(d.r * (255 - m) + s.r * m + 127) / 255,
   (d.g * (255 - m) + s.g * m + 127) / 255,
   (d.b * (255 - m) + s.b * m + 127) / 255,
   (d.a * (255 - m) + s.a * m + 127) / 255⟩

theorem maskBlend_alpha_zero {s : Pix} (d : Pix) (h : s.a = 0) :
    maskBlend s d = d := by
  have hch : ∀ c : ℕ, (c * (255 - 0) + 0 + 127) / 255 = c := by
    intro c
    have : c * 255 + 127 = 255 * c + 127 := by ring
    simp [this, Nat.mul_add_div]
  cases d
  simp [maskBlend, h, hch]

/-- Pillow source-over blending of one RGBA pixel (`src` over `dst`);
`src.a = 0` copies `dst` exactly. -/
def overPix (s d : Pix) : Pix :=
  if s.a = 0 then d
  else
    let oa255 := s.a * 255 + d.a * (255 - s.a)
    ⟨(s.r * s.a * 255 + d.r * d.a * (255 - s.a) + oa255 / 2) / oa255,
     (s.g * s.a * 255 + d.g * d.a * (255 - s.a) + oa255 / 2) / oa255,
     (s.b * s.a * 255 + d.b * d.a * (255 - s.a) + oa255 / 2) / oa255,
     (oa255 + 127) / 255⟩

theorem overPix_alpha_zero {s : Pix} (d : Pix) (h : s.a = 0) : overPix s d = d := by
  simp [overPix, h]

/-- `Image.new('RGBA', (w, h), (0, 0, 0, 0))`. -/
def zeroImg (w h : ℕ) : Img := ⟨w, h, fun _ _ => Pix.zero⟩

/-- `dst.paste(src, (x, y), src)`: blend `src` into `dst` at offset `(x, y)`
(possibly negative — out-of-canvas parts are clipped by the bounds test),
masked by `src`'s own alpha. -/
def Img.paste (dst src : Img) (x y : ℤ) : Img :=
  ⟨dst.width, dst.height, fun u v =>
    if x ≤ (u : ℤ) ∧ (u : ℤ) < x + src.width ∧ y ≤ (v : ℤ) ∧ (v : ℤ) < y + src.height then
      maskBlend (src.pix ((u : ℤ) - x).toNat ((v : ℤ) - y).toNat) (dst.pix u v)
    else dst.pix u v⟩

/-- `Image.alpha_composite(base, layer)`. -/
def alphaComposite (base layer : Img) : Img :=
  ⟨base.width, base.height, fun u v => overPix (layer.pix u v) (base.pix u v)⟩

/-- Every pixel fully transparent. -/
def AlphaZero (i : Img) : Prop := ∀ u v, (i.pix u v).a = 0

/-- Every pixel fully zero. -/
def AllZero (i : Img) : Prop := ∀ u v, i.pix u v = Pix.zero

theorem AllZero.alphaZero {i : Img} (h : AllZero i) : AlphaZero i := by
  intro u v; rw [h u v]; rfl

theorem allZero_zeroImg (w h : ℕ) : AllZero (zeroImg w h) := fun _ _ => rfl

/-- Pasting a fully transparent layer into a fresh transparent canvas and
alpha-compositing the result over `base` returns `base` pixel for pixel. -/
theorem compose_paste_alphaZero (base src : Img) (x y : ℤ) (h : AlphaZero src) :
    alphaComposite base (Img.paste (zeroImg base.width base.height) src x y) = base := by
  refine Img.ext_eq rfl rfl ?_
  funext u v
  show overPix ((Img.paste (zeroImg base.width base.height) src x y).pix u v)
      (base.pix u v) = base.pix u v
  have hz : (Img.paste (zeroImg base.width base.height) src x y).pix u v = Pix.zero := by
    simp only [Img.paste, zeroImg]
    split
    · exact maskBlend_alpha_zero Pix.zero (h _ _)
    · rfl
  rw [hz]
  exact overPix_alpha_zero _ rfl

/-- `a.point(lambda v: int(v*opacity))` on the alpha channel after
`wm.split()` / `Image.merge`. -/
def alphaScale (img : Img) (op : ℚ) : Img :=
  ⟨img.width, img.height, fun u v =>
    let p := img.pix u v
    ⟨p.r, p.g, p.b, (pyInt ((p.a : ℚ) * op)).toNat⟩⟩

theorem alphaScale_zero (img : Img) : AlphaZero (alphaScale img 0) := by
  intro u v
  simp [alphaScale, pyInt, qfloor]

/-!
## External rendering primitives

Qt text rasterisation (`QImage` + `QPainter.drawText` + `ImageQt.fromqimage`),
LANCZOS resizing, and BICUBIC expand-rotation are host primitives; the
embedding is parametric in them.  `renderText text px pen` stands for the
whole `_render_text_image`-style block: a zero-filled `QImage`, a pen of the
given RGBA colour, `drawText`, and conversion to PIL RGBA.
-/

structure Prims where
  resize : Img → ℕ → ℕ → Img
  rotate : Img → ℤ → Img
  fontAdvance : String → ℤ → ℕ
  fontHeight : ℤ → ℕ
  renderText : String → ℤ → Pix → Img

/-- The watermark-relevant state of `PreviewLabel` (`wm_mode`,
`watermark_text`, `opacity`, `font_size`, `color_rgb`, `anchor`, `offset`,
`rotation`, `wm_image_pil`, `wm_scale`). -/
structure WSpec where
  mode : String
  text : String
  opacity : ℚ
  font_size : ℤ
  color : ℕ × ℕ × ℕ
  anchor : String
  offsetX : ℤ
  offsetY : ℤ
  rotation : ℤ
  wmImage : Option Img
  wmScale : ℤ

/-- `QColor(r, g, b, int(255*opacity))`. -/
def penColor (s : WSpec) : Pix :=
  ⟨s.color.1, s.color.2.1, s.color.2.2, (pyInt (255 * s.opacity)).toNat⟩

/-- `ratio = min(max_w / img.width, max_h / img.height, 1.0)` with
`max_w, max_h = 900, 700` (Python's three-argument `min`, left-associated). -/
def capRatio (w h : ℕ) : ℚ :=
  min ((900 : ℚ) / (w : ℚ)) (min ((700 : ℚ) / (h : ℚ)) 1)

/-- The preview-scaling cap shared by `PreviewLabel.load_image` (lines
97–102) and `MainWindow._compose_preview_like` (lines 993–1000): uniform
`min(900/w, 700/h, 1.0)` scale, resized only when the ratio is < 1. -/
def previewCap (P : Prims) (img : Img) : Img :=
  if capRatio img.width img.height < 1 then
    P.resize img (pyInt ((img.width : ℚ) * capRatio img.width img.height)).toNat
      (pyInt ((img.height : ℚ) * capRatio img.width img.height)).toNat
  else img

/-- The dimensions `previewCap` requests, as a pure function of the source
dimensions. -/
def previewCapDims (w h : ℕ) : ℕ × ℕ :=
  if capRatio w h < 1 then
    ((pyInt ((w : ℚ) * capRatio w h)).toNat, (pyInt ((h : ℚ) * capRatio w h)).toNat)
  else (w, h)

/-- `PreviewLabel.update_composite` (lines 146–202) acting on
`self._pil_base = base`: the image-watermark branch when `wm_mode == 'image'`
and a watermark bitmap is loaded, otherwise the text branch guarded by
`if text:`. -/
def previewComposite (P : Prims) (s : WSpec) (base : Img) : Img :=
  if s.mode = "image" then
    match s.wmImage with
    | some wm =>
      let target_w := (max 1 (pyInt ((base.width : ℚ) * (s.wmScale : ℚ) / 100))).toNat
      let ratio : ℚ := (target_w : ℚ) / (wm.width : ℚ)
      let wm1 := P.resize wm target_w (max 1 (pyInt ((wm.height : ℚ) * ratio))).toNat
      let wm2 := if s.opacity < 1 then alphaScale wm1 s.opacity else wm1
      let wm3 := if s.rotation ≠ 0 then P.rotate wm2 s.rotation else wm2
      let a := anchorPos (base.width : ℤ) (base.height : ℤ) (wm3.width : ℤ) (wm3.height : ℤ) s.anchor
      alphaComposite base
        (Img.paste (zeroImg base.width base.height) wm3 (a.1 + s.offsetX) (a.2 + s.offsetY))
    | none =>
      if s.text ≠ "" then
        let eff := max 6 (min 400 s.font_size)
        let tw := max 1 (P.fontAdvance s.text eff)
        let th := max 1 (P.fontHeight eff)
        let a := anchorPos (base.width : ℤ) (base.height : ℤ) (tw : ℤ) (th : ℤ) s.anchor
        let timg := P.renderText s.text eff (penColor s)
        let timg2 := if s.rotation ≠ 0 then P.rotate timg s.rotation else timg
        alphaComposite base
          (Img.paste (zeroImg base.width base.height) timg2 (a.1 + s.offsetX) (a.2 + s.offsetY))
      else base
  else
    if s.text ≠ "" then
      let eff := max 6 (min 400 s.font_size)
      let tw := max 1 (P.fontAdvance s.text eff)
      let th := max 1 (P.fontHeight eff)
      let a := anchorPos (base.width : ℤ) (base.height : ℤ) (tw : ℤ) (th : ℤ) s.anchor
      let timg := P.renderText s.text eff (penColor s)
      let timg2 := if s.rotation ≠ 0 then P.rotate timg s.rotation else timg
      alphaComposite base
        (Img.paste (zeroImg base.width base.height) timg2 (a.1 + s.offsetX) (a.2 + s.offsetY))
    else base

/-- The watermark-application part of `MainWindow._compose_preview_like`
(lines 1001–1050), acting on the already preview-capped image `img`; unlike
the preview it renders the text layer even for an empty `text`. -/
def applyWatermark (P : Prims) (s : WSpec) (t : String) (img : Img) : Img :=
  if s.mode = "image" then
    match s.wmImage with
    | some wm =>
      let target_w := (max 1 (pyInt ((img.width : ℚ) * (s.wmScale : ℚ) / 100))).toNat
      let ratio : ℚ := (target_w : ℚ) / (wm.width : ℚ)
      let wm1 := P.resize wm target_w (max 1 (pyInt ((wm.height : ℚ) * ratio))).toNat
      let wm2 := if s.opacity < 1 then alphaScale wm1 s.opacity else wm1
      let wm3 := if s.rotation ≠ 0 then P.rotate wm2 s.rotation else wm2
      let a := anchorPos (img.width : ℤ) (img.height : ℤ) (wm3.width : ℤ) (wm3.height : ℤ) s.anchor
      alphaComposite img
        (Img.paste (zeroImg img.width img.height) wm3 (a.1 + s.offsetX) (a.2 + s.offsetY))
    | none =>
      let eff := max 6 (min 400 s.font_size)
      let tw := max 1 (P.fontAdvance t eff)
      let th := max 1 (P.fontHeight eff)
      let a := anchorPos (img.width : ℤ) (img.height : ℤ) (tw : ℤ) (th : ℤ) s.anchor
      let timg := P.renderText t eff (penColor s)
      let timg2 := if s.rotation ≠ 0 then P.rotate timg s.rotation else timg
      alphaComposite img
        (Img.paste (zeroImg img.width img.height) timg2 (a.1 + s.offsetX) (a.2 + s.offsetY))
  else
    let eff := max 6 (min 400 s.font_size)
    let tw := max 1 (P.fontAdvance t eff)
    let th := max 1 (P.fontHeight eff)
    let a := anchorPos (img.width : ℤ) (img.height : ℤ) (tw : ℤ) (th : ℤ) s.anchor
    let timg := P.renderText t eff (penColor s)
    let timg2 := if s.rotation ≠ 0 then P.rotate timg s.rotation else timg
    alphaComposite img
      (Img.paste (zeroImg img.width img.height) timg2 (a.1 + s.offsetX) (a.2 + s.offsetY))

/-- `MainWindow._compose_preview_like(path, text)` with the decoded source
image `src` as input: apply the preview cap, then the watermark. -/
def composePreviewLike (P : Prims) (s : WSpec) (t : String) (src : Img) : Img :=
  applyWatermark P s t (previewCap P src)

theorem qfloor_eq_floor (q : ℚ) : qfloor q = ⌊q⌋ := by
  rw [Rat.floor_def, qfloor]
  exact Int.fdiv_eq_ediv _ (by positivity)

theorem pyInt_of_nonneg {q : ℚ} (h : 0 ≤ q) : pyInt q = ⌊q⌋ := by
  rw [pyInt, if_pos h, qfloor_eq_floor]

/-- Compositing a (possibly rotated) fully transparent rendered layer leaves
the base untouched; rotation is covered through the `hRA` closure property of
the abstract rotation primitive. -/
theorem compose_rot_alphaZero (P : Prims) (base timg : Img) (r x y : ℤ)
    (h : AlphaZero timg)
    (hRA : ∀ (i : Img) (rot : ℤ), AlphaZero i → AlphaZero (P.rotate i rot)) :
    alphaComposite base (Img.paste (zeroImg base.width base.height)
      (if r ≠ 0 then P.rotate timg r else timg) x y) = base := by
  by_cases hr : r ≠ 0
  · rw [if_pos hr]
    exact compose_paste_alphaZero base _ x y (hRA timg r h)
  · rw [if_neg hr]
    exact compose_paste_alphaZero base _ x y h

theorem previewComposite_eq_applyWatermark (P : Prims) (s : WSpec) (base : Img)
    (hE : ∀ (px : ℤ) (pen : Pix), AlphaZero (P.renderText "" px pen))
    (hRA : ∀ (i : Img) (rot : ℤ), AlphaZero i → AlphaZero (P.rotate i rot)) :
    previewComposite P s base = applyWatermark P s s.text base := by
  unfold previewComposite applyWatermark
  by_cases hm : s.mode = "image"
  · rw [if_pos hm, if_pos hm]
    cases hwm : s.wmImage with
    | some wm => rfl
    | none =>
      by_cases ht : s.text ≠ ""
      · rw [if_pos ht]
      · rw [if_neg ht]
        have ht2 : s.text = "" := not_ne_iff.mp ht
        rw [ht2]
        exact (compose_rot_alphaZero P base _ s.rotation _ _ (hE _ _) hRA).symm
  · rw [if_neg hm, if_neg hm]
    by_cases ht : s.text ≠ ""
    · rw [if_pos ht]
    · rw [if_neg ht]
      have ht2 : s.text = "" := not_ne_iff.mp ht
      rw [ht2]
      exact (compose_rot_alphaZero P base _ s.rotation _ _ (hE _ _) hRA).symm

/-- C1: given the same watermark parameters, composing via the preview path
(`PreviewLabel.load_image` + `update_composite`) and via the export path
(`MainWindow._compose_preview_like`) on the same source image produces
pixel-identical output.  The hypotheses record two facts about the host
primitives: drawing an empty string leaves the layer fully transparent, and
rotating a fully transparent layer keeps it fully transparent. -/
theorem C1_preview_export_parity (P : Prims) (s : WSpec) (src : Img)
    (hE : ∀ (px : ℤ) (pen : Pix), AlphaZero (P.renderText "" px pen))
    (hRA : ∀ (i : Img) (rot : ℤ), AlphaZero i → AlphaZero (P.rotate i rot)) :
    previewComposite P s (previewCap P src) = composePreviewLike P s s.text src :=
  previewComposite_eq_applyWatermark P s (previewCap P src) hE hRA

/-- Concrete primitives for witnesses: resize returns the requested
dimensions, rotation is the identity, text rendering yields a fully
transparent 1×1 layer. -/
def idPrims : Prims where
  resize := fun i w h => ⟨w, h, i.pix⟩
  rotate := fun i _ => i
  fontAdvance := fun t _ => 8 * t.data.length
  fontHeight := fun _ => 16
  renderText := fun _ _ _ => zeroImg 1 1

/-- A sample preview state (text mode). -/
def sampleSpec : WSpec where
  mode := "text"
  text := "wm"
  opacity := 1/2
  font_size := 32
  color := (255, 255, 255)
  anchor := "bottom-right"
  offsetX := -16
  offsetY := -16
  rotation := 0
  wmImage := none
  wmScale := 20

/-- A sample opaque 1800×1400 source image. -/
def bigImg : Img := ⟨1800, 1400, fun _ _ => ⟨10, 20, 30, 255⟩⟩

theorem C1_preview_export_parity_witness :
    previewComposite idPrims sampleSpec (previewCap idPrims bigImg)
      = composePreviewLike idPrims sampleSpec sampleSpec.text bigImg :=
  C1_preview_export_parity idPrims sampleSpec bigImg
    (fun _ _ _ _ => rfl) (fun _ _ h => h)

theorem previewCapDims_le (w h : ℕ) (hw : 1 ≤ w) (hh : 1 ≤ h) :
    (previewCapDims w h).1 ≤ w ∧ (previewCapDims w h).2 ≤ h ∧
    (previewCapDims w h).1 ≤ 900 ∧ (previewCapDims w h).2 ≤ 700 := by
  have h0w : (0:ℚ) < (w:ℚ) := by exact_mod_cast hw
  have h0h : (0:ℚ) < (h:ℚ) := by exact_mod_cast hh
  unfold previewCapDims
  set ratio : ℚ := capRatio w h with hratio
  have hr1 : ratio ≤ 1 := le_trans (min_le_right _ _) (min_le_right _ _)
  have hrw : ratio ≤ 900 / (w:ℚ) := min_le_left _ _
  have hrh : ratio ≤ 700 / (h:ℚ) := le_trans (min_le_right _ _) (min_le_left _ _)
  have hrpos : 0 ≤ ratio :=
    le_min (le_of_lt (div_pos (by norm_num) h0w))
      (le_min (le_of_lt (div_pos (by norm_num) h0h)) (by norm_num))
  have hw900 : (w:ℚ) * (900 / (w:ℚ)) = 900 := by field_simp
  have hh700 : (h:ℚ) * (700 / (h:ℚ)) = 700 := by field_simp
  split_ifs with hlt
  · have hq0w : (0:ℚ) ≤ (w:ℚ) * ratio := mul_nonneg (le_of_lt h0w) hrpos
    have hq0h : (0:ℚ) ≤ (h:ℚ) * ratio := mul_nonneg (le_of_lt h0h) hrpos
    have bw : ∀ c : ℚ, (w:ℚ) * ratio ≤ c → ∀ n : ℕ, (c = (n:ℚ)) →
        (pyInt ((w:ℚ) * ratio)).toNat ≤ n := by
      intro c hc n hn
      rw [pyInt_of_nonneg hq0w, Int.toNat_le]
      have := Int.floor_mono (hn ▸ hc)
      rwa [Int.floor_natCast] at this
    have bh : ∀ c : ℚ, (h:ℚ) * ratio ≤ c → ∀ n : ℕ, (c = (n:ℚ)) →
        (pyInt ((h:ℚ) * ratio)).toNat ≤ n := by
      intro c hc n hn
      rw [pyInt_of_nonneg hq0h, Int.toNat_le]
      have := Int.floor_mono (hn ▸ hc)
      rwa [Int.floor_natCast] at this
    refine ⟨?_, ?_, ?_, ?_⟩
    · exact bw (w:ℚ) (by nlinarith) w rfl
    · exact bh (h:ℚ) (by nlinarith) h rfl
    · refine bw 900 ?_ 900 (by norm_num)
      calc (w:ℚ) * ratio ≤ (w:ℚ) * (900 / (w:ℚ)) :=
            mul_le_mul_of_nonneg_left hrw (le_of_lt h0w)
        _ = 900 := hw900
    · refine bh 700 ?_ 700 (by norm_num)
      calc (h:ℚ) * ratio ≤ (h:ℚ) * (700 / (h:ℚ)) :=
            mul_le_mul_of_nonneg_left hrh (le_of_lt h0h)
        _ = 700 := hh700
  · have h1r : (1:ℚ) ≤ ratio := not_lt.mp hlt
    have hwle : (w:ℚ) ≤ 900 := (one_le_div h0w).mp (le_trans h1r hrw)
    have hhle : (h:ℚ) ≤ 700 := (one_le_div h0h).mp (le_trans h1r hrh)
    exact ⟨le_refl w, le_refl h, by exact_mod_cast hwle, by exact_mod_cast hhle⟩

theorem previewCap_dims (P : Prims) (src : Img)
    (hres : ∀ (i : Img) (w h : ℕ), (P.resize i w h).width = w ∧ (P.resize i w h).height = h) :
    (previewCap P src).width = (previewCapDims src.width src.height).1 ∧
    (previewCap P src).height = (previewCapDims src.width src.height).2 := by
  unfold previewCap previewCapDims
  split_ifs with hlt
  · exact ⟨(hres _ _ _).1, (hres _ _ _).2⟩
  · exact ⟨rfl, rfl⟩

/-- C2 (amended): the batch export the UI actually performs
(`_export_preview_like_batch` → `_compose_preview_like`) applies the preview
cap first and composes the watermark on the capped image: the compose path
factors through `previewCap`, whose output dimensions never exceed the source
dimensions (no upscaling) nor the 900×700 preview bound. -/
theorem C2_ui_export_composes_on_capped (P : Prims) (s : WSpec) (t : String) (src : Img)
    (hres : ∀ (i : Img) (w h : ℕ), (P.resize i w h).width = w ∧ (P.resize i w h).height = h)
    (hw : 1 ≤ src.width) (hh : 1 ≤ src.height) :
    composePreviewLike P s t src = applyWatermark P s t (previewCap P src) ∧
    (previewCap P src).width = (previewCapDims src.width src.height).1 ∧
    (previewCap P src).height = (previewCapDims src.width src.height).2 ∧
    (previewCapDims src.width src.height).1 ≤ src.width ∧
    (previewCapDims src.width src.height).2 ≤ src.height ∧
    (previewCapDims src.width src.height).1 ≤ 900 ∧
    (previewCapDims src.width src.height).2 ≤ 700 := by
  obtain ⟨d1, d2⟩ := previewCap_dims P src hres
  obtain ⟨b1, b2, b3, b4⟩ := previewCapDims_le src.width src.height hw hh
  exact ⟨rfl, d1, d2, b1, b2, b3, b4⟩

theorem C2_ui_export_composes_on_capped_witness :
    composePreviewLike idPrims sampleSpec "wm" bigImg
      = applyWatermark idPrims sampleSpec "wm" (previewCap idPrims bigImg) ∧
    (previewCap idPrims bigImg).width = (previewCapDims bigImg.width bigImg.height).1 ∧
    (previewCap idPrims bigImg).height = (previewCapDims bigImg.width bigImg.height).2 ∧
    (previewCapDims bigImg.width bigImg.height).1 ≤ bigImg.width ∧
    (previewCapDims bigImg.width bigImg.height).2 ≤ bigImg.height ∧
    (previewCapDims bigImg.width bigImg.height).1 ≤ 900 ∧
    (previewCapDims bigImg.width bigImg.height).2 ≤ 700 :=
  C2_ui_export_composes_on_capped idPrims sampleSpec "wm" bigImg
    (fun _ _ _ => ⟨rfl, rfl⟩) (by decide) (by decide)

/-!
## `core/exporter.py` — `export_batch`

The keyword arguments of `export_batch` are gathered in `EArgs`; `load`
abstracts `Image.open(p).convert('RGBA')` (`none` = raising) and `writeOk`
abstracts `out.save(target, ...)` (`false` = raising).
-/

structure EArgs where
  text : String
  font_size : ℤ
  color : ℕ × ℕ × ℕ
  opacity : ℚ
  anchor : String
  ratioX : ℚ
  ratioY : ℚ

/-- The per-image composition of `export_batch` (lines 128–142):
`_render_text_image`, `_anchor_pos` on the FULL-resolution canvas,
the ratio offsets scaled by the full width/height, paste and composite.
No preview cap is applied here. -/
def exportCompose (P : Prims) (e : EArgs) (base : Img) : Img :=
  let timg := P.renderText e.text (max 6 (min 400 e.font_size))
    ⟨e.color.1, e.color.2.1, e.color.2.2, (pyInt (255 * e.opacity)).toNat⟩
  let a := anchorPos (base.width : ℤ) (base.height : ℤ) (timg.width : ℤ) (timg.height : ℤ) e.anchor
  alphaComposite base (Img.paste (zeroImg base.width base.height) timg
    (a.1 + pyInt (e.ratioX * (base.width : ℚ))) (a.2 + pyInt (e.ratioY * (base.height : ℚ))))

/-- `_maybe_resize(img, settings)` from `core/exporter.py`. -/
def maybeResize (P : Prims) (st : ExportSettings) (img : Img) : Img :=
  match st.resize_mode, st.resize_value with
  | some mode, some v =>
    if v = 0 then img
    else if mode = "width" ∧ 0 < v then
      P.resize img v.toNat
        (max 1 (pyInt ((img.height : ℚ) * ((v:ℚ) / (img.width : ℚ))))).toNat
    else if mode = "height" ∧ 0 < v then
      P.resize img
        (max 1 (pyInt ((img.width : ℚ) * ((v:ℚ) / (img.height : ℚ))))).toNat v.toNat
    else if mode = "percent" ∧ 0 < v then
      P.resize img (max 1 (pyInt ((img.width : ℚ) * ((v:ℚ) / 100)))).toNat
        (max 1 (pyInt ((img.height : ℚ) * ((v:ℚ) / 100)))).toNat
    else img
  | _, _ => img

/-- The inline resize block of `_export_preview_like_batch` (lines 957–974);
note its `percent` branch uses `max(1, val)/100`. -/
def previewMaybeResize (P : Prims) (st : ExportSettings) (img : Img) : Img :=
  match st.resize_mode, st.resize_value with
  | some mode, some v =>
    if v = 0 then img
    else if mode = "width" then
      P.resize img v.toNat
        (max 1 (pyInt ((img.height : ℚ) * ((v:ℚ) / (img.width : ℚ))))).toNat
    else if mode = "height" then
      P.resize img
        (max 1 (pyInt ((img.width : ℚ) * ((v:ℚ) / (img.height : ℚ))))).toNat v.toNat
    else if mode = "percent" then
      P.resize img (max 1 (pyInt ((img.width : ℚ) * (((max 1 v : ℤ):ℚ) / 100)))).toNat
        (max 1 (pyInt ((img.height : ℚ) * (((max 1 v : ℤ):ℚ) / 100)))).toNat
    else img
  | _, _ => img

/-- Success/failure counters and the filesystem state threaded through a
batch run. -/
structure BatchState where
  ok : ℕ
  fail : ℕ
  fs : List String

/-- One iteration of the `for p in image_paths: try: ... except: fail += 1`
loop of `export_batch`. -/
def exportBatchStep (P : Prims) (load : String → Option Img)
    (writeOk : String → Img → Bool) (e : EArgs) (st : ExportSettings)
    (b : BatchState) (p : String) : BatchState :=
  match load p with
  | none => ⟨b.ok, b.fail + 1, b.fs⟩
  | some base =>
    let out := maybeResize P st (exportCompose P e base)
    let outExt := if lowerStr st.fmt = "png" then "png" else "jpg"
    let target := safeFilename (applyNaming p st outExt) st.output_dir b.fs
    if writeOk target out then ⟨b.ok + 1, b.fail, target :: b.fs⟩
    else ⟨b.ok, b.fail + 1, b.fs⟩

/-- `export_batch(image_paths, ..., settings)`: fold the per-image step over
the paths, starting from zero counters and the pre-existing files `fs0`;
`(ok, fail)` are the returned counts. -/
def export_batch (P : Prims) (load : String → Option Img)
    (writeOk : String → Img → Bool) (e : EArgs) (st : ExportSettings)
    (paths : List String) (fs0 : List String) : BatchState :=
  paths.foldl (exportBatchStep P load writeOk e st) ⟨0, 0, fs0⟩

/-- One iteration of `MainWindow._export_preview_like_batch`. -/
def exportPreviewLikeStep (P : Prims) (load : String → Option Img)
    (writeOk : String → Img → Bool) (s : WSpec) (t : String) (st : ExportSettings)
    (b : BatchState) (p : String) : BatchState :=
  match load p with
  | none => ⟨b.ok, b.fail + 1, b.fs⟩
  | some src =>
    let out := previewMaybeResize P st (composePreviewLike P s t src)
    let target := buildOutputPath p st b.fs
    if writeOk target out then ⟨b.ok + 1, b.fail, target :: b.fs⟩
    else ⟨b.ok, b.fail + 1, b.fs⟩

/-- `MainWindow._export_preview_like_batch(paths, text, settings)`. -/
def exportPreviewLikeBatch (P : Prims) (load : String → Option Img)
    (writeOk : String → Img → Bool) (s : WSpec) (t : String) (st : ExportSettings)
    (paths : List String) (fs0 : List String) : BatchState :=
  paths.foldl (exportPreviewLikeStep P load writeOk s t st) ⟨0, 0, fs0⟩

theorem batch_fold_invariant (step : BatchState → String → BatchState)
    (hstep : ∀ b p, ((step b p).ok + (step b p).fail = b.ok + b.fail + 1) ∧
      ((step b p).fs.length + b.ok = b.fs.length + (step b p).ok)) :
    ∀ (paths : List String) (b : BatchState),
      ((paths.foldl step b).ok + (paths.foldl step b).fail
        = b.ok + b.fail + paths.length) ∧
      ((paths.foldl step b).fs.length + b.ok
        = b.fs.length + (paths.foldl step b).ok) := by
  intro paths
  induction paths with
  | nil => intro b; simp
  | cons p ps ih =>
    intro b
    have h1 := hstep b p
    have h2 := ih (step b p)
    simp only [List.foldl_cons, List.length_cons]
    constructor <;> omega

theorem step_if_invariant (b : BatchState) (C : Prop) [Decidable C] (x : String) :
    ((if C then (⟨b.ok + 1, b.fail, x :: b.fs⟩ : BatchState)
        else ⟨b.ok, b.fail + 1, b.fs⟩).ok
      + (if C then (⟨b.ok + 1, b.fail, x :: b.fs⟩ : BatchState)
        else ⟨b.ok, b.fail + 1, b.fs⟩).fail = b.ok + b.fail + 1) ∧
    ((if C then (⟨b.ok + 1, b.fail, x :: b.fs⟩ : BatchState)
        else ⟨b.ok, b.fail + 1, b.fs⟩).fs.length + b.ok
      = b.fs.length + (if C then (⟨b.ok + 1, b.fail, x :: b.fs⟩ : BatchState)
        else ⟨b.ok, b.fail + 1, b.fs⟩).ok) := by
  by_cases h : C
  · rw [if_pos h]
    constructor
    · show b.ok + 1 + b.fail = b.ok + b.fail + 1
      omega
    · show (x :: b.fs).length + b.ok = b.fs.length + (b.ok + 1)
      rw [List.length_cons]
      omega
  · rw [if_neg h]
    exact ⟨by show b.ok + (b.fail + 1) = b.ok + b.fail + 1; omega, rfl⟩

theorem exportBatchStep_invariant (P : Prims) (load : String → Option Img)
    (writeOk : String → Img → Bool) (e : EArgs) (st : ExportSettings) :
    ∀ b p, ((exportBatchStep P load writeOk e st b p).ok
        + (exportBatchStep P load writeOk e st b p).fail = b.ok + b.fail + 1) ∧
      ((exportBatchStep P load writeOk e st b p).fs.length + b.ok
        = b.fs.length + (exportBatchStep P load writeOk e st b p).ok) := by
  intro b p
  unfold exportBatchStep
  cases load p with
  | none =>
    exact ⟨by show b.ok + (b.fail + 1) = b.ok + b.fail + 1; omega, rfl⟩
  | some base =>
    exact step_if_invariant b _ _

theorem exportPreviewLikeStep_invariant (P : Prims) (load : String → Option Img)
    (writeOk : String → Img → Bool) (s : WSpec) (t : String) (st : ExportSettings) :
    ∀ b p, ((exportPreviewLikeStep P load writeOk s t st b p).ok
        + (exportPreviewLikeStep P load writeOk s t st b p).fail = b.ok + b.fail + 1) ∧
      ((exportPreviewLikeStep P load writeOk s t st b p).fs.length + b.ok
        = b.fs.length + (exportPreviewLikeStep P load writeOk s t st b p).ok) := by
  intro b p
  unfold exportPreviewLikeStep
  cases load p with
  | none =>
    exact ⟨by show b.ok + (b.fail + 1) = b.ok + b.fail + 1; omega, rfl⟩
  | some base =>
    exact step_if_invariant b _ _

/-- C6: both batch drivers process every source path: a load or write failure
on one image only increments the failure counter, the loop continues, and the
result is exactly the aggregate pair with `ok + fail` equal to the number of
paths; moreover exactly `ok` output files are written. -/
theorem C6_batch_counts (P : Prims) (load : String → Option Img)
    (writeOk : String → Img → Bool) (e : EArgs) (s : WSpec) (t : String)
    (st : ExportSettings) (paths : List String) (fs0 : List String) :
    ((export_batch P load writeOk e st paths fs0).ok
      + (export_batch P load writeOk e st paths fs0).fail = paths.length) ∧
    ((export_batch P load writeOk e st paths fs0).fs.length
      = fs0.length + (export_batch P load writeOk e st paths fs0).ok) ∧
    ((exportPreviewLikeBatch P load writeOk s t st paths fs0).ok
      + (exportPreviewLikeBatch P load writeOk s t st paths fs0).fail = paths.length) ∧
    ((exportPreviewLikeBatch P load writeOk s t st paths fs0).fs.length
      = fs0.length + (exportPreviewLikeBatch P load writeOk s t st paths fs0).ok) := by
  have h1 := batch_fold_invariant _ (exportBatchStep_invariant P load writeOk e st)
    paths ⟨0, 0, fs0⟩
  have h2 := batch_fold_invariant _ (exportPreviewLikeStep_invariant P load writeOk s t st)
    paths ⟨0, 0, fs0⟩
  simp only [show (⟨0, 0, fs0⟩ : BatchState).ok = 0 from rfl,
    show (⟨0, 0, fs0⟩ : BatchState).fail = 0 from rfl,
    show (⟨0, 0, fs0⟩ : BatchState).fs = fs0 from rfl] at h1 h2
  unfold export_batch exportPreviewLikeBatch
  refine ⟨?_, ?_, ?_, ?_⟩ <;> omega

/-- Sample keyword arguments for `export_batch`. -/
def sampleEArgs : EArgs :=
  ⟨"wm", 32, (255, 255, 255), 1/2, "bottom-right", -16/900, -16/700⟩

theorem previewCapDims_eval : previewCapDims 1800 1400 = (900, 700) := by
  have : (previewCapDims 1800 1400).1 = 900 ∧ (previewCapDims 1800 1400).2 = 700 := by
    norm_num [previewCapDims, capRatio, pyInt, qfloor, min_def]
    constructor <;> rfl
  calc previewCapDims 1800 1400 = ((previewCapDims 1800 1400).1, (previewCapDims 1800 1400).2) := rfl
    _ = (900, 700) := by rw [this.1, this.2]

/-- C2 counterexample: `export_batch` (`core/exporter.py`) composes on the
full-resolution canvas: on a 1800×1400 source its composed output is
1800 px wide, while composing on the preview-scaled image would be capped at
`previewCapDims 1800 1400 = (900, 700)`. -/
theorem C2_counterexample :
    (exportCompose idPrims sampleEArgs bigImg).width = 1800 ∧
    (previewCapDims bigImg.width bigImg.height).1 = 900 ∧
    (1800 : ℕ) ≠ 900 := by
  refine ⟨rfl, ?_, by decide⟩
  show (previewCapDims 1800 1400).1 = 900
  rw [previewCapDims_eval]

/-- C7: with opacity 0 the composed output is pixel-identical to the base,
in both the preview compose (text or image mode; the pen alpha
`int(255*0)` is 0, and the image-watermark alpha channel is pointwise scaled
to 0) and the exporter's text compose.  `hPen` records that Qt draws nothing
visible with a fully transparent pen; `hRA` that rotation keeps a fully
transparent layer fully transparent. -/
theorem C7_opacity_zero (P : Prims) (s : WSpec) (e : EArgs) (base : Img)
    (hops : s.opacity = 0) (hope : e.opacity = 0)
    (hPen : ∀ (t : String) (px : ℤ) (pen : Pix), pen.a = 0 →
      AlphaZero (P.renderText t px pen))
    (hRA : ∀ (i : Img) (rot : ℤ), AlphaZero i → AlphaZero (P.rotate i rot)) :
    previewComposite P s base = base ∧ exportCompose P e base = base := by
  have hpen0 : (penColor s).a = 0 := by
    show ((pyInt (255 * s.opacity)).toNat) = 0
    rw [hops]
    norm_num [pyInt, qfloor]
  constructor
  · unfold previewComposite
    by_cases hm : s.mode = "image"
    · rw [if_pos hm]
      cases hwm : s.wmImage with
      | some wm =>
        simp only [hops]
        rw [if_pos (show (0:ℚ) < 1 by norm_num)]
        exact compose_rot_alphaZero P base _ s.rotation _ _ (alphaScale_zero _) hRA
      | none =>
        by_cases ht : s.text ≠ ""
        · rw [if_pos ht]
          exact compose_rot_alphaZero P base _ s.rotation _ _
            (hPen _ _ _ hpen0) hRA
        · rw [if_neg ht]
    · rw [if_neg hm]
      by_cases ht : s.text ≠ ""
      · rw [if_pos ht]
        exact compose_rot_alphaZero P base _ s.rotation _ _
          (hPen _ _ _ hpen0) hRA
      · rw [if_neg ht]
  · unfold exportCompose
    apply compose_paste_alphaZero
    apply hPen
    show ((pyInt (255 * e.opacity)).toNat) = 0
    rw [hope]
    norm_num [pyInt, qfloor]

/-- A small opaque base image. -/
def smallImg : Img := ⟨4, 3, fun _ _ => ⟨1, 2, 3, 4⟩⟩

theorem C7_opacity_zero_witness :
    previewComposite idPrims { sampleSpec with opacity := 0 } smallImg = smallImg ∧
    exportCompose idPrims { sampleEArgs with opacity := 0 } smallImg = smallImg :=
  C7_opacity_zero idPrims { sampleSpec with opacity := 0 }
    { sampleEArgs with opacity := 0 } smallImg rfl rfl
    (fun _ _ _ _ _ _ => rfl) (fun _ _ h => h)

/-!
## `core/preview_composer.py` — `compose_text_watermark`

`pilDrawText layer pos text font color` abstracts
`ImageDraw.Draw(layer); d.text(pos, text, font=font, fill=color)`: the single
mutating PIL call of the function, whose target is the freshly created
`layer`.  `base_rgba.convert` / `.copy()` return new images and never write
to `base_rgba`, so the embedding threads the base through unchanged and
returns it as the second component (its state after the call). -/
def composeTextWatermark {F : Type} (pilDrawText : Img → ℤ × ℤ → String → F → Pix → Img)
    (base_rgba : Img) (text : String) (font : F) (color_rgba : Pix)
    (pos_xy : ℤ × ℤ) : Img × Img :=
  let img := base_rgba
  if text = "" then (img, base_rgba)
  else
    let layer := pilDrawText (zeroImg img.width img.height) pos_xy text font color_rgba
    (alphaComposite img layer, base_rgba)

/-- C8: `compose_text_watermark` never mutates the base bitmap — after the
call the base equals its initial value — and in the empty-text case the
returned image is (an unmodified copy of) the base itself. -/
theorem C8_compose_no_mutation {F : Type}
    (pilDrawText : Img → ℤ × ℤ → String → F → Pix → Img)
    (base : Img) (text : String) (font : F) (color : Pix) (pos : ℤ × ℤ) :
    (composeTextWatermark pilDrawText base text font color pos).2 = base ∧
    (text = "" → (composeTextWatermark pilDrawText base text font color pos).1 = base) := by
  unfold composeTextWatermark
  by_cases h : text = ""
  · rw [if_pos h]
    exact ⟨rfl, fun _ => rfl⟩
  · rw [if_neg h]
    exact ⟨rfl, fun hc => absurd hc h⟩

theorem C8_compose_no_mutation_witness :
    (composeTextWatermark (fun l (_ : ℤ × ℤ) (_ : String) (_ : Unit) (_ : Pix) => l)
      smallImg "" () Pix.zero (0, 0)).2 = smallImg ∧
    (composeTextWatermark (fun l (_ : ℤ × ℤ) (_ : String) (_ : Unit) (_ : Pix) => l)
      smallImg "" () Pix.zero (0, 0)).1 = smallImg := by
  have h := C8_compose_no_mutation (fun l (_ : ℤ × ℤ) (_ : String) (_ : Unit) (_ : Pix) => l)
    smallImg "" () Pix.zero (0, 0)
  exact ⟨h.1, h.2 rfl⟩

/-!
## The offset ratio round trip (`_offset_ratio` / `export_batch`) in
IEEE-754 binary64 arithmetic

`MainWindow._offset_ratio` computes `rx = (x - ax) / max(1, W) = dx / W` with
Python float (binary64) division; `export_batch` then computes
`int(offset_ratio[0] * W)` with a binary64 multiplication and `int()`
truncation.  Both operations are correctly rounded (round to nearest, ties to
even).  The model below represents a binary64 value exactly as a dyadic pair
`(m, e)` of value `m·2^e` and implements the two correctly rounded operations
with integer arithmetic (normal range only — no overflow or subnormals arise
for pixel offsets and canvas sizes, and the second factor `W < 2^53` is
exact).
-/

def log2Fuel : ℕ → ℕ → ℕ
  | 0, _ => 0
  | fuel+1, n => if 2 ≤ n then log2Fuel fuel (n / 2) + 1 else 0

def natLog2 (n : ℕ) : ℕ := log2Fuel n n

/-- Bit length of a natural number. -/
def natBits (n : ℕ) : ℕ := if n = 0 then 0 else natLog2 n + 1

theorem log2Fuel_le : ∀ (fuel n j : ℕ), n < 2^(j+1) → log2Fuel fuel n ≤ j := by
  intro fuel
  induction fuel with
  | zero => intro n j _; exact Nat.zero_le j
  | succ f ih =>
    intro n j hn
    by_cases h2 : 2 ≤ n
    · cases j with
      | zero => omega
      | succ j' =>
        simp only [log2Fuel, if_pos h2]
        have hlt : n / 2 < 2^(j'+1) := by
          rw [Nat.div_lt_iff_lt_mul (by norm_num)]
          calc n < 2^(j'+1+1) := hn
            _ = 2^(j'+1) * 2 := by rw [pow_succ]
        exact Nat.succ_le_succ (ih (n/2) j' hlt)
    · simp only [log2Fuel, if_neg h2]
      exact Nat.zero_le j

theorem natBits_le {n j : ℕ} (h : n < 2^j) : natBits n ≤ j := by
  unfold natBits
  split
  · exact Nat.zero_le j
  · rename_i hn
    cases j with
    | zero => simp at h; omega
    | succ j' => exact Nat.succ_le_succ (log2Fuel_le n n j' h)

/-- Round `num / den` to the nearest integer, ties to even. -/
def roundNatHE (num den : ℕ) : ℕ :=
  if 2 * (num % den) < den then num / den
  else if den < 2 * (num % den) then num / den + 1
  else if (num / den) % 2 = 0 then num / den else num / den + 1

theorem roundNatHE_exact {num den : ℕ} (hden : 0 < den) (h : num % den = 0) :
    roundNatHE num den = num / den := by
  unfold roundNatHE
  rw [h]
  simp [hden]

/-- Correctly rounded binary64 division `n / d` (normal range): the result is
the dyadic pair `(±m, E − 52)` where `m` rounds `|n/d| · 2^(52−E)` to the
nearest integer, ties to even, and `E = ⌊log2 |n/d|⌋`. -/
def roundDF (n d : ℤ) : ℤ × ℤ :=
  if n = 0 then (0, 0)
  else
    let a := n.natAbs
    let b := d.natAbs
    let E0 : ℤ := (natBits a : ℤ) - (natBits b : ℤ)
    let E : ℤ :=
      if (if 0 ≤ E0 then b * 2^E0.toNat ≤ a else b ≤ a * 2^(-E0).toNat) then E0 else E0 - 1
    let m :=
      if 0 ≤ 52 - E then roundNatHE (a * 2^(52 - E).toNat) b
      else roundNatHE a (b * 2^(E - 52).toNat)
    (if 0 ≤ n then (m : ℤ) else -(m : ℤ), E - 52)

/-- Correctly rounded binary64 multiplication of the dyadic value `p` by the
integer `W` (exact for `|W| < 2^53`): the exact product `p.1·W · 2^(p.2)` is
rounded back to 53 significant bits when needed. -/
def floatMulInt (p : ℤ × ℤ) (W : ℤ) : ℤ × ℤ :=
  if (p.1 * W).natAbs < 2^53 then (p.1 * W, p.2)
  else
    (if 0 ≤ p.1 * W
      then ((roundNatHE (p.1 * W).natAbs (2^(natBits (p.1 * W).natAbs - 53)) : ℕ) : ℤ)
      else -((roundNatHE (p.1 * W).natAbs (2^(natBits (p.1 * W).natAbs - 53)) : ℕ) : ℤ),
     p.2 + (natBits (p.1 * W).natAbs - 53 : ℕ))

/-- Python `int()` of the dyadic value: truncation toward zero. -/
def truncDyadic (p : ℤ × ℤ) : ℤ :=
  if 0 ≤ p.2 then p.1 * 2^(p.2.toNat)
  else if 0 ≤ p.1 then ((p.1.natAbs / 2^((-p.2).toNat) : ℕ) : ℤ)
  else -((p.1.natAbs / 2^((-p.2).toNat) : ℕ) : ℤ)

theorem truncDyadic_mul_pow (d : ℤ) (j : ℕ) :
    truncDyadic (d * 2^j, -(j:ℤ)) = d := by
  unfold truncDyadic
  by_cases hj : (0:ℤ) ≤ -(j:ℤ)
  · have hj0 : j = 0 := by omega
    subst hj0
    simp
  · rw [if_neg hj]
    have htn : ((-(-(j:ℤ))).toNat) = j := by omega
    have habs : (d * 2^j).natAbs = d.natAbs * 2^j := by
      rw [Int.natAbs_mul]
      congr 1
      rw [show ((2:ℤ)^j) = ((2^j : ℕ) : ℤ) by push_cast; ring]
      exact Int.natAbs_ofNat _
    have hdiv : (d * 2^j).natAbs / 2^((-(-(j:ℤ))).toNat) = d.natAbs := by
      rw [htn, habs, Nat.mul_div_cancel _ (Nat.pos_pow_of_pos j (by norm_num))]
    by_cases hd : 0 ≤ d
    · have hP : 0 ≤ d * 2^j := mul_nonneg hd (by positivity)
      rw [if_pos hP, hdiv]
      omega
    · have hP : ¬ (0 ≤ d * 2^j) := by
        push_neg at hd ⊢
        exact mul_neg_of_neg_of_pos hd (by positivity)
      rw [if_neg hP, hdiv]
      omega

/-- `int(fl(fl(dx / W) · W))`: the exporter's recovery of the pixel offset
from the ratio `_offset_ratio` produced. -/
def recoverOffset (dx W : ℤ) : ℤ :=
  truncDyadic (floatMulInt (roundDF dx W) W)

/-- The dyadic pair `p` has exactly the value `n / d`. -/
def dyadicEqRatio (p : ℤ × ℤ) (n d : ℤ) : Prop :=
  if 0 ≤ p.2 then p.1 * 2^(p.2.toNat) * d = n
  else p.1 * d = n * 2^((-p.2).toNat)

instance (p : ℤ × ℤ) (n d : ℤ) : Decidable (dyadicEqRatio p n d) := by
  unfold dyadicEqRatio
  infer_instance

/-- C4 counterexample: the round trip is NOT exact for every offset and
canvas size: for `dx = 1, W = 49` the binary64 value of `(1/49)·49` is
`0.9999999999999999` and `int()` truncates it to `0`, not `1` (Python:
`int((1/49)*49) == 0`). -/
theorem C4_counterexample :
    recoverOffset 1 49 = 0 ∧
    ¬ (∀ dx W : ℤ, 1 ≤ W → recoverOffset dx W = dx) := by
  have h0 : recoverOffset 1 49 = 0 := by decide
  refine ⟨h0, fun h => ?_⟩
  have h1 := h 1 49 (by norm_num)
  rw [h0] at h1
  exact absurd h1 (by norm_num)

/-- C4 (amended): the round trip recovers the pixel offset exactly whenever
the float division `dx / W` is exact (its binary64 value equals the rational
`dx/W`, e.g. whenever `W` is a power of two) and `|dx| < 2^53`; in general
the recovered offset can differ from `dx`, as in `C4_counterexample`. -/
theorem C4_ratio_roundtrip_amended (dx W : ℤ) (hW : 1 ≤ W)
    (hdx : dx.natAbs < 2^53)
    (hexact : dyadicEqRatio (roundDF dx W) dx W) :
    recoverOffset dx W = dx := by
  unfold recoverOffset
  rcases hrd : roundDF dx W with ⟨m, e⟩
  rw [hrd] at hexact
  unfold dyadicEqRatio at hexact
  simp only at hexact
  by_cases he : (0:ℤ) ≤ e
  · rw [if_pos he] at hexact
    have h1 : dx = (m * W) * 2^e.toNat := by rw [← hexact]; ring
    have hsmall : (m * W).natAbs < 2^53 := by
      have h2 : dx.natAbs = (m*W).natAbs * 2^e.toNat := by
        rw [h1, Int.natAbs_mul]
        congr 1
        rw [show ((2:ℤ)^e.toNat) = ((2^e.toNat : ℕ) : ℤ) by push_cast; ring]
        exact Int.natAbs_ofNat _
      have h3 : (m*W).natAbs ≤ dx.natAbs := by
        rw [h2]
        calc (m*W).natAbs = (m*W).natAbs * 1 := by ring
          _ ≤ (m*W).natAbs * 2^e.toNat :=
            Nat.mul_le_mul_left _ (Nat.one_le_pow _ _ (by norm_num))
      omega
    unfold floatMulInt
    simp only
    rw [if_pos hsmall]
    unfold truncDyadic
    simp only
    rw [if_pos he, ← hexact]
    ring
  · rw [if_neg he] at hexact
    set k := (-e).toNat with hk
    have hek : e = -(k:ℤ) := by omega
    have hP : m * W = dx * 2^k := hexact
    by_cases hsmall : (m * W).natAbs < 2^53
    · unfold floatMulInt
      simp only
      rw [if_pos hsmall, hP, hek]
      exact truncDyadic_mul_pow dx k
    · unfold floatMulInt
      simp only
      rw [if_neg hsmall]
      push_neg at hsmall
      have habs : (m * W).natAbs = dx.natAbs * 2^k := by
        rw [hP, Int.natAbs_mul]
        congr 1
        rw [show ((2:ℤ)^k) = ((2^k : ℕ) : ℤ) by push_cast; ring]
        exact Int.natAbs_ofNat _
      have hbits : natBits ((m * W).natAbs) ≤ 53 + k := by
        apply natBits_le
        rw [habs, pow_add]
        exact (Nat.mul_lt_mul_right (Nat.pos_pow_of_pos k (by norm_num))).mpr hdx
      set s := natBits ((m * W).natAbs) - 53 with hs
      have hsk : s ≤ k := by omega
      have hdvd : (2:ℕ)^s ∣ (m * W).natAbs := by
        rw [habs]
        exact Dvd.dvd.mul_left (pow_dvd_pow 2 hsk) _
      have hmod : (m * W).natAbs % 2^s = 0 := Nat.mod_eq_zero_of_dvd hdvd
      have hq : roundNatHE ((m * W).natAbs) (2^s) = (m * W).natAbs / 2^s :=
        roundNatHE_exact (Nat.pos_pow_of_pos s (by norm_num)) hmod
      have hdiv : (m * W).natAbs / 2^s = dx.natAbs * 2^(k - s) := by
        rw [habs, Nat.mul_div_assoc _ (pow_dvd_pow 2 hsk), Nat.pow_div hsk (by norm_num)]
      have hes : e + (s:ℤ) = -(((k - s : ℕ)):ℤ) := by
        rw [hek]
        push_cast [Nat.cast_sub hsk]
        ring
      rw [hq, hdiv]
      by_cases hPs : 0 ≤ m * W
      · rw [if_pos hPs]
        have hdx0 : 0 ≤ dx := by
          by_contra hneg
          push_neg at hneg
          have hlt : m * W < 0 := by
            rw [hP]
            exact mul_neg_of_neg_of_pos hneg (by positivity)
          omega
        have hcast : ((dx.natAbs * 2^(k-s) : ℕ) : ℤ) = dx * 2^(k-s) := by
          push_cast
          rw [abs_of_nonneg hdx0]
        rw [hcast, hes]
        exact truncDyadic_mul_pow dx (k - s)
      · rw [if_neg hPs]
        have hdxneg : dx < 0 := by
          by_contra hnn
          push_neg at hnn
          exact hPs (by rw [hP]; exact mul_nonneg hnn (by positivity))
        have hcast : -((dx.natAbs * 2^(k-s) : ℕ) : ℤ) = dx * 2^(k-s) := by
          push_cast
          rw [abs_of_neg hdxneg]
          ring
        rw [hcast, hes]
        exact truncDyadic_mul_pow dx (k - s)

theorem C4_ratio_roundtrip_amended_witness :
    (1:ℤ) ≤ 4 ∧ (3:ℤ).natAbs < 2^53 ∧
    dyadicEqRatio (roundDF 3 4) 3 4 ∧ recoverOffset 3 4 = 3 :=
  ⟨by norm_num, by decide, by decide,
   C4_ratio_roundtrip_amended 3 4 (by norm_num) (by decide) (by decide)⟩

end Watermark
